import Mathlib

/-!
# Verification of the semantic-router classification engine

Shallow embedding of the `jicowan/semantic-router` repository.

The repository's sources contain `semantic_router/encoders/bedrock.py`
(the Bedrock embedding provider) and the unit tests of the route layer.
The route-layer module itself (`semantic_router/layer.py`) is not among
the sources, so the classification engine (grouping, aggregation,
threshold gate, orchestration) is modelled from the specification's
words; the Bedrock encoder is embedded directly from its source.

Scores and vector components are modelled as rationals (`ℚ`): the
properties under consideration are order/arithmetic properties that do
not depend on floating-point rounding.
-/

namespace SemanticRouter

/-! ## Python value model (for the Bedrock encoder)

The Bedrock encoder builds JSON request bodies and reads fields out of
JSON responses with `dict.get` (which returns `None` for a missing
key).  `Py` is a small model of the Python/JSON values involved. -/

/-- A Python/JSON value: `None`, a string, a number, a list, or an
object (dictionary with string keys). -/
inductive Py where
  | none : Py
  | str : String → Py
  | num : ℚ → Py
  | list : List Py → Py
  | obj : List (String × Py) → Py

/-- Model of Python `dict.get(key)`: the value stored under `key`, or
`None` when the key is missing or the value is not a dictionary. -/
def Py.get : Py → String → Py
  | .obj kvs, k =>
    match kvs.lookup k with
    | some v => v
    | Option.none => .none
  | _, _ => .none

/-- `true` exactly on numeric leaves. -/
def Py.isNum : Py → Bool
  | .num _ => true
  | _ => false

/-- A "single flat vector of floats": a list value all of whose
elements are numbers (and not a nested list of vectors). -/
def Py.isFlatVec : Py → Bool
  | .list xs => xs.all Py.isNum
  | _ => false

/-! ## BedrockEncoder (embedded from `src/semantic_router/encoders/bedrock.py`) -/

/-- The relevant state of a constructed `BedrockEncoder`: `name` (the
model id) and `score_threshold`, both set by `__init__` via
`super().__init__(name=model_id, score_threshold=score_threshold)`. -/
structure BedrockEncoder where
  name : String
  score_threshold : ℚ
deriving DecidableEq

/-- The default of the `score_threshold` parameter of
`BedrockEncoder.__init__` in the source: `0.75`. -/
def bedrockDefaultScoreThreshold : ℚ := 75 / 100

/-- From `BedrockEncoder.__init__`: if `model_id` is `None` it falls
back to the `EncoderDefault.BEDROCK` embedding model (`defaults.py` is
not among the sources, so that default model id is a parameter
`defaultModelId` here); the encoder's `name` becomes the resolved model
id and `score_threshold` is stored as given. -/
def BedrockEncoder.init (defaultModelId : String) (model_id : Option String)
    (score_threshold : ℚ) : BedrockEncoder :=
  ⟨model_id.getD defaultModelId, score_threshold⟩

/-- `BedrockEncoder.__init__` called without an explicit
`score_threshold` argument: the Python default argument `0.75`
applies. -/
def BedrockEncoder.initDefault (defaultModelId : String)
    (model_id : Option String) : BedrockEncoder :=
  BedrockEncoder.init defaultModelId model_id bedrockDefaultScoreThreshold

/-- Python truthiness of an optional string (`None` and `""` are
falsy), as used by the `x or y` credential fallbacks in
`_initialize_client`. -/
def pyTruthy : Option String → Bool
  | Option.none => false
  | some s => s ≠ ""

/-- Python `a or b` on optional strings. -/
def pyOr (a b : Option String) : Option String :=
  if pyTruthy a then a else b

/-- The arguments with which `_initialize_client` constructs the
`boto3` client (`boto3.client('bedrock-runtime', ...)`).  Note the
source passes the raw `aws_secret_access_key` parameter to the client,
not the environment-resolved `aws_secret_key` local. -/
structure BedrockClient where
  aws_access_key_id : Option String
  aws_secret_access_key : Option String
  region_name : Option String
deriving DecidableEq

/-- From `BedrockEncoder._initialize_client`: resolve each credential
from the argument, falling back to the environment (`env` models
`os.getenv`; `os.getenv("AWS_REGION", "us-west-2")` supplies a default
for the region); raise `ValueError` (modelled as `Except.error` with
the source's message) when the resolved access key id or secret key is
`None`; otherwise construct the client. -/
def initializeClient (aws_access_key_id aws_secret_access_key region : Option String)
    (env : String → Option String) : Except String BedrockClient :=
  let akid := pyOr aws_access_key_id (env "AWS_ACCESS_KEY_ID")
  let skey := pyOr aws_secret_access_key (env "AWS_SECRET_ACCESS_KEY")
  let reg := pyOr region (some ((env "AWS_REGION").getD "us-west-2"))
  if akid = Option.none then
    Except.error "AWS access key ID cannot be 'None'."
  else if skey = Option.none then
    Except.error "AWS secret access key cannot be 'None'."
  else
    Except.ok ⟨akid, aws_secret_access_key, reg⟩

/-- The request body built for the `cohere.embed-english-v3` branch of
`BedrockEncoder.__call__`:
`json.dumps({"texts": [doc], "input_type": "clustering"})`. -/
def cohereBody (doc : String) : Py :=
  .obj [("texts", .list [.str doc]), ("input_type", .str "clustering")]

/-- The request body built for the default (Titan) branch of
`BedrockEncoder.__call__`: `json.dumps({"inputText": doc})`. -/
def titanBody (doc : String) : Py :=
  .obj [("inputText", .str doc)]

/-- From `BedrockEncoder.__call__`: for each document, in order, invoke
the model (the Bedrock runtime is the oracle `api`, taking the
`modelId` and the request body and returning the parsed response
body).  In the `cohere.embed-english-v3` branch the code appends
`r.get('embeddings')` and invokes `modelId=self.name`; in the default
branch it appends `r.get('embedding')` and invokes the hardcoded
`modelId="amazon.titan-embed-text-v1"`.  Returns the list of appended
responses together with the log of `(modelId, body)` invocations in
call order. -/
def BedrockEncoder.call (enc : BedrockEncoder) (api : String → Py → Py) :
    List String → List Py × List (String × Py)
  | [] => ([], [])
  | doc :: rest =>
    let tail := BedrockEncoder.call enc api rest
    if enc.name = "cohere.embed-english-v3" then
      ((api enc.name (cohereBody doc)).get "embeddings" :: tail.1,
        (enc.name, cohereBody doc) :: tail.2)
    else
      ((api "amazon.titan-embed-text-v1" (titanBody doc)).get "embedding" :: tail.1,
        ("amazon.titan-embed-text-v1", titanBody doc) :: tail.2)

/-! ## Route layer (modelled from the spec)

`semantic_router/layer.py` is not among the sources (only its unit
tests are), so the classification engine below is modelled from the
specification: Route, the parallel vector index / category-label
sequences, the grouping-and-aggregation classifier, the threshold
gate, and the add/query orchestration. -/

/-- Modelled from the spec: a `Route` is a named category with an
ordered sequence of example utterances and an optional per-route
similarity threshold overriding the layer default
(`semantic_router/route.py` is not among the sources). -/
structure Route where
  name : String
  utterances : List String
  score_threshold : Option ℚ

/-- Modelled from the spec: the embedding-provider interface consumed
by the route layer — `encode(ordered sequence of strings) -> ordered
sequence of vectors`, plus a `name` and a provider-level default
`score_threshold` (the encoder base class is not among the sources).
`encode` is kept abstract; the contract that it returns one vector per
input string is a hypothesis where a claim needs it. -/
structure Encoder where
  name : String
  score_threshold : ℚ
  encode : List String → List (List ℚ)

/-- Modelled from the spec: the `RouteLayer` state — an embedding
provider, the parallel `index` (vectors) and `categories` (route
labels) sequences, the registered routes, and the default
`score_threshold` (`semantic_router/layer.py` is not among the
sources). -/
structure RouteLayer where
  encoder : Encoder
  index : List (List ℚ)
  categories : List String
  routes : List Route
  score_threshold : ℚ

/-- Modelled from the spec: `RouteLayer.add(route)` embeds
`route.utterances` via the provider, appends the resulting vectors to
the index and one `route.name` label per appended vector to the
category list, and registers the route for threshold lookup. -/
def RouteLayer.add (rl : RouteLayer) (route : Route) : RouteLayer :=
  let embeds := rl.encoder.encode route.utterances
  { rl with
    index := rl.index ++ embeds
    categories := rl.categories ++ embeds.map (fun _ => route.name)
    routes := rl.routes ++ [route] }

/-- Modelled from the spec: `RouteLayer._add_routes(routes)` applies
`add` to each route in sequence. -/
def RouteLayer.addRoutes (rl : RouteLayer) (routes : List Route) : RouteLayer :=
  routes.foldl (fun acc r => acc.add r) rl

/-- Modelled from the spec: the `RouteLayer` constructor — takes a
provider and an optional initial list of routes (each immediately
embedded and indexed); `score_threshold` defaults to the provider's
value unless explicitly overridden. -/
def mkRouteLayer (encoder : Encoder) (routes : List Route)
    (score_threshold : Option ℚ) : RouteLayer :=
  RouteLayer.addRoutes
    ⟨encoder, [], [], [], score_threshold.getD encoder.score_threshold⟩ routes

/-- Modelled from the spec: one step of the grouping pass of
`RouteLayer._semantic_classify` — append `score` to the group of
`name`, or open a new group at the end when `name` has no group yet
(groups thus appear in first-encounter order). -/
def insertScore : List (String × List ℚ) → String → ℚ → List (String × List ℚ)
  | [], name, score => [(name, [score])]
  | g :: gs, name, score =>
    if g.1 = name then (g.1, g.2 ++ [score]) :: gs
    else g :: insertScore gs name score

/-- Left-to-right grouping loop over the scored rows, starting from an
accumulator of already-built groups. -/
def groupByRouteAux : List (String × List ℚ) → List (String × ℚ) → List (String × List ℚ)
  | acc, [] => acc
  | acc, (name, score) :: rest => groupByRouteAux (insertScore acc name score) rest

/-- Modelled from the spec: group the per-row `(route_name, score)`
pairs by `route_name`, preserving for each group the ordered sequence
of scores in the order they were encountered (not sorted); groups
appear in order of first encounter. -/
def groupByRoute (results : List (String × ℚ)) : List (String × List ℚ) :=
  groupByRouteAux [] results

/-- Modelled from the spec: `RouteLayer._semantic_classify` — group
the scored rows by route, aggregate each group by the sum of its
scores, and return the group with the maximum aggregate (first
encountered wins ties; `List.argmax` returns the first maximiser)
together with its full ordered score list; no winner on empty input. -/
def semanticClassify (results : List (String × ℚ)) : Option (String × List ℚ) :=
  (groupByRoute results).argmax (fun g => g.2.sum)

/-- Modelled from the spec: `RouteLayer._pass_threshold(scores,
threshold)` — `true` iff some score meets or exceeds the threshold;
`false` on an empty score list. -/
def passThreshold (scores : List ℚ) (threshold : ℚ) : Bool :=
  scores.any (fun s => decide (threshold ≤ s))

/-- Modelled from the spec: the threshold resolved for a winning route
— the route's own `score_threshold` when the registered route defines
one, else the layer default. -/
def RouteLayer.thresholdFor (rl : RouteLayer) (name : String) : ℚ :=
  match rl.routes.find? (fun r => r.name == name) with
  | some r => r.score_threshold.getD rl.score_threshold
  | Option.none => rl.score_threshold

/-- Modelled from the spec: `RouteLayer.query(text)` — if the index is
empty, return "no match" immediately with no provider call; otherwise
embed the query, score it against every index row in index order (the
similarity scorer is the parameter `sim`: cosine similarity over the
reals has no computable embedding on `ℚ`, and the spec fixes only that
each index row is scored against the query vector), classify, and gate
the winner's scores with the resolved threshold.  The second component
counts the provider `encode` invocations made. -/
def RouteLayer.query (rl : RouteLayer) (sim : List ℚ → List ℚ → ℚ)
    (text : String) : Option String × Nat :=
  if rl.index.isEmpty then (Option.none, 0)
  else
    match (rl.encoder.encode [text]).head? with
    | Option.none => (Option.none, 1)
    | some qv =>
      let results := rl.categories.zip (rl.index.map (fun v => sim qv v))
      match semanticClassify results with
      | Option.none => (Option.none, 1)
      | some (name, scores) =>
        if passThreshold scores (rl.thresholdFor name) then (some name, 1)
        else (Option.none, 1)

/-- The parallel-sequences invariant of the route layer: the vector
index and the category-label list have equal length. -/
def parallelInv (rl : RouteLayer) : Prop :=
  rl.index.length = rl.categories.length

/-- The scores associated with route `name` in a scored-row list, in
encounter order. -/
def scoresOf (name : String) (results : List (String × ℚ)) : List ℚ :=
  results.filterMap (fun p => if p.1 = name then some p.2 else Option.none)

/-- Group lookup by route name (first matching group). -/
def lookupGroup (name : String) : List (String × List ℚ) → Option (List ℚ)
  | [] => Option.none
  | g :: gs => if g.1 = name then some g.2 else lookupGroup name gs

/-- The order of first encounter of the route names of a scored-row
list: each name listed once, at the position of its first
occurrence. -/
def firstEncounterOrder (names : List String) : List String :=
  names.foldl (fun acc n => if n ∈ acc then acc else acc ++ [n]) []

/-- The position of the first occurrence of a group in a group list
(the list's length when absent). -/
def groupIdx (g : String × List ℚ) : List (String × List ℚ) → ℕ
  | [] => 0
  | x :: xs => if x = g then 0 else groupIdx g xs + 1

/-! ## Grouping lemmas -/

theorem lookupGroup_insertScore_self (acc : List (String × List ℚ)) (n : String) (s : ℚ) :
    lookupGroup n (insertScore acc n s) = some (((lookupGroup n acc).getD []) ++ [s]) := by
  induction acc with
  | nil => simp [insertScore, lookupGroup]
  | cons g gs ih =>
    by_cases h : g.1 = n
    · simp [insertScore, lookupGroup, h]
    · simp [insertScore, lookupGroup, h, ih]

theorem lookupGroup_insertScore_other (acc : List (String × List ℚ)) (n m : String)
    (s : ℚ) (h : m ≠ n) :
    lookupGroup m (insertScore acc n s) = lookupGroup m acc := by
  induction acc with
  | nil => simp [insertScore, lookupGroup, Ne.symm h]
  | cons g gs ih =>
    by_cases hg : g.1 = n
    · simp [insertScore, lookupGroup, hg, Ne.symm h]
    · by_cases hm : g.1 = m
      · simp [insertScore, lookupGroup, hg, hm, h]
      · simp [insertScore, lookupGroup, hg, hm, ih]

theorem names_insertScore (acc : List (String × List ℚ)) (n : String) (s : ℚ) :
    (insertScore acc n s).map Prod.fst =
      if n ∈ acc.map Prod.fst then acc.map Prod.fst else acc.map Prod.fst ++ [n] := by
  induction acc with
  | nil => simp [insertScore]
  | cons g gs ih =>
    by_cases h : g.1 = n
    · simp [insertScore, h]
    · by_cases hm : n ∈ gs.map Prod.fst
      · simp [insertScore, h, ih, hm, Ne.symm h]
      · simp [insertScore, h, ih, hm, Ne.symm h]

theorem lookupGroup_groupByRouteAux (rest : List (String × ℚ)) :
    ∀ (acc : List (String × List ℚ)) (n : String),
      lookupGroup n (groupByRouteAux acc rest) =
        match lookupGroup n acc with
        | some a => some (a ++ scoresOf n rest)
        | Option.none =>
          if n ∈ rest.map Prod.fst then some (scoresOf n rest) else Option.none := by
  induction rest with
  | nil =>
    intro acc n
    cases h : lookupGroup n acc <;> simp [groupByRouteAux, scoresOf, h]
  | cons p rest ih =>
    intro acc n
    obtain ⟨pn, ps⟩ := p
    rw [show groupByRouteAux acc ((pn, ps) :: rest) =
      groupByRouteAux (insertScore acc pn ps) rest from rfl, ih]
    by_cases hn : pn = n
    · subst hn
      rw [lookupGroup_insertScore_self]
      cases h : lookupGroup pn acc with
      | none => simp [scoresOf, h, List.filterMap_cons]
      | some a => simp [scoresOf, h, List.filterMap_cons]
    · rw [lookupGroup_insertScore_other _ _ _ _ (Ne.symm hn)]
      cases h : lookupGroup n acc with
      | none =>
        by_cases hmem : n ∈ List.map Prod.fst rest
        · simp [scoresOf, h, List.filterMap_cons, hn, hmem]
        · have hnot : n ∉ pn :: List.map Prod.fst rest := by
            simp [List.mem_cons, Ne.symm hn, hmem]
          simp [scoresOf, h, List.filterMap_cons, hn, hmem, hnot]
      | some a => simp [scoresOf, h, List.filterMap_cons, hn]

theorem lookupGroup_groupByRoute (results : List (String × ℚ)) (n : String) :
    lookupGroup n (groupByRoute results) =
      if n ∈ results.map Prod.fst then some (scoresOf n results) else Option.none := by
  have h := lookupGroup_groupByRouteAux results [] n
  simpa [groupByRoute, lookupGroup] using h

theorem names_groupByRouteAux (rest : List (String × ℚ)) :
    ∀ acc : List (String × List ℚ),
      (groupByRouteAux acc rest).map Prod.fst =
        (rest.map Prod.fst).foldl
          (fun ns m => if m ∈ ns then ns else ns ++ [m]) (acc.map Prod.fst) := by
  induction rest with
  | nil => intro acc; rfl
  | cons p rest ih =>
    intro acc
    obtain ⟨pn, ps⟩ := p
    rw [show groupByRouteAux acc ((pn, ps) :: rest) =
      groupByRouteAux (insertScore acc pn ps) rest from rfl, ih, names_insertScore]
    simp only [List.map_cons, List.foldl_cons]

theorem names_groupByRoute (results : List (String × ℚ)) :
    (groupByRoute results).map Prod.fst = firstEncounterOrder (results.map Prod.fst) := by
  rw [groupByRoute, names_groupByRouteAux, firstEncounterOrder]
  simp only [List.map_nil]

theorem nodup_foldl_freshNames (names : List String) :
    ∀ acc : List String, acc.Nodup →
      (names.foldl (fun ns m => if m ∈ ns then ns else ns ++ [m]) acc).Nodup := by
  induction names with
  | nil => intro acc h; exact h
  | cons n names ih =>
    intro acc h
    simp only [List.foldl_cons]
    by_cases hm : n ∈ acc
    · simpa [hm] using ih acc h
    · refine ih _ ?_
      simp only [if_neg hm]
      simp [List.nodup_append, h, hm]

theorem mem_foldl_freshNames (names : List String) :
    ∀ (acc : List String) (m : String),
      (m ∈ names.foldl (fun ns n => if n ∈ ns then ns else ns ++ [n]) acc) ↔
        m ∈ acc ∨ m ∈ names := by
  induction names with
  | nil => simp
  | cons n names ih =>
    intro acc m
    simp only [List.foldl_cons]
    rw [ih]
    by_cases hn : n ∈ acc
    · simp only [if_pos hn, List.mem_cons]
      constructor
      · rintro (hh | hh)
        · exact Or.inl hh
        · exact Or.inr (Or.inr hh)
      · rintro (hh | hh | hh)
        · exact Or.inl hh
        · exact Or.inl (hh ▸ hn)
        · exact Or.inr hh
    · simp only [if_neg hn, List.mem_append, List.mem_singleton, List.mem_cons]
      tauto

theorem nodup_names_groupByRoute (results : List (String × ℚ)) :
    ((groupByRoute results).map Prod.fst).Nodup := by
  rw [names_groupByRoute, firstEncounterOrder]
  exact nodup_foldl_freshNames _ [] List.nodup_nil

theorem mem_names_groupByRoute (results : List (String × ℚ)) (n : String) :
    n ∈ (groupByRoute results).map Prod.fst ↔ n ∈ results.map Prod.fst := by
  rw [names_groupByRoute, firstEncounterOrder, mem_foldl_freshNames]
  simp

theorem mem_of_lookupGroup_eq_some (n : String) (s : List ℚ) :
    ∀ groups : List (String × List ℚ), lookupGroup n groups = some s → (n, s) ∈ groups := by
  intro groups
  induction groups with
  | nil => simp [lookupGroup]
  | cons g gs ih =>
    obtain ⟨gn, g2⟩ := g
    simp only [lookupGroup]
    by_cases h : gn = n
    · subst h
      simp only [if_pos rfl]
      intro he
      injection he with he
      subst he
      exact List.mem_cons_self _ _
    · simp only [if_neg h]
      intro he
      exact List.mem_cons_of_mem _ (ih he)

theorem lookupGroup_eq_some_of_mem_nodup (groups : List (String × List ℚ))
    (hn : (groups.map Prod.fst).Nodup) (n : String) (s : List ℚ)
    (h : (n, s) ∈ groups) : lookupGroup n groups = some s := by
  induction groups with
  | nil => simp at h
  | cons g gs ih =>
    obtain ⟨gn, g2⟩ := g
    simp only [List.map_cons, List.nodup_cons] at hn
    rcases List.mem_cons.mp h with he | hm
    · injection he with h1 h2
      subst h1; subst h2
      simp [lookupGroup]
    · have hmem : n ∈ gs.map Prod.fst := List.mem_map_of_mem Prod.fst hm
      have hne : ¬ gn = n := fun hq => hn.1 (hq ▸ hmem)
      simp only [lookupGroup, if_neg hne]
      exact ih hn.2 hm

theorem scoresOf_ne_nil_iff (n : String) (results : List (String × ℚ)) :
    scoresOf n results ≠ [] ↔ n ∈ results.map Prod.fst := by
  induction results with
  | nil => simp [scoresOf]
  | cons p rest ih =>
    obtain ⟨pn, ps⟩ := p
    by_cases h : pn = n
    · subst h
      simp [scoresOf, List.filterMap_cons]
    · rw [scoresOf] at ih ⊢
      simp [List.filterMap_cons, h, ih, List.mem_cons, Ne.symm h]

theorem mem_groupByRoute_eq (results : List (String × ℚ)) (g : String × List ℚ)
    (h : g ∈ groupByRoute results) :
    g.2 = scoresOf g.1 results ∧ g.1 ∈ results.map Prod.fst := by
  have hl : lookupGroup g.1 (groupByRoute results) = some g.2 :=
    lookupGroup_eq_some_of_mem_nodup _ (nodup_names_groupByRoute results) g.1 g.2
      (by simpa using h)
  rw [lookupGroup_groupByRoute] at hl
  by_cases hm : g.1 ∈ results.map Prod.fst
  · rw [if_pos hm] at hl
    injection hl with hl
    exact ⟨hl.symm, hm⟩
  · rw [if_neg hm] at hl
    exact absurd hl (by simp)

theorem groupByRoute_ne_nil (results : List (String × ℚ)) (h : results ≠ []) :
    groupByRoute results ≠ [] := by
  obtain ⟨p, rest, rfl⟩ := List.exists_cons_of_ne_nil h
  intro hg
  have hm : p.1 ∈ (groupByRoute (p :: rest)).map Prod.fst :=
    (mem_names_groupByRoute (p :: rest) p.1).mpr (by simp)
  rw [hg] at hm
  simp at hm

/-! ## Claim theorems -/

theorem groupIdx_eq_indexOf (g : String × List ℚ) (l : List (String × List ℚ)) :
    groupIdx g l = @List.indexOf _ instBEqOfDecidableEq g l := by
  induction l with
  | nil => rfl
  | cons x xs ih =>
    by_cases h : x = g
    · rw [List.indexOf_cons_eq _ h]
      simp [groupIdx, h]
    · rw [List.indexOf_cons_ne _ h]
      simp [groupIdx, h, ih]

/-- C1: for every non-empty list of `(route_name, score)` pairs, the
classifier returns a route whose score list is non-empty and whose
aggregate sum of scores is at least the aggregate sum of every other
route of the input, and on an aggregate tie the route first
encountered in input order wins (the groups are listed in
first-encounter order and the winner has the least group position
among the groups attaining the maximal aggregate). -/
theorem semantic_classify_winner (results : List (String × ℚ)) (h : results ≠ []) :
    ∃ best : String × List ℚ, semanticClassify results = some best ∧
      best ∈ groupByRoute results ∧
      best.2 ≠ [] ∧
      (∀ name, name ∈ results.map Prod.fst → (scoresOf name results).sum ≤ best.2.sum) ∧
      (∀ g, g ∈ groupByRoute results → g.2.sum = best.2.sum →
        groupIdx best (groupByRoute results) ≤ groupIdx g (groupByRoute results)) ∧
      (groupByRoute results).map Prod.fst = firstEncounterOrder (results.map Prod.fst) := by
  have hne := groupByRoute_ne_nil results h
  obtain ⟨best, hbest⟩ : ∃ b, (groupByRoute results).argmax (fun g => g.2.sum) = some b := by
    cases hb : (groupByRoute results).argmax (fun g => g.2.sum) with
    | none => exact absurd (List.argmax_eq_none.mp hb) hne
    | some b => exact ⟨b, rfl⟩
  have hopt : best ∈ (groupByRoute results).argmax (fun g => g.2.sum) := hbest
  have hmem : best ∈ groupByRoute results := List.argmax_mem hopt
  obtain ⟨hscores, hmemname⟩ := mem_groupByRoute_eq results best hmem
  refine ⟨best, hbest, hmem, ?_, ?_, ?_, names_groupByRoute results⟩
  · rw [hscores]
    exact (scoresOf_ne_nil_iff _ _).mpr hmemname
  · intro name hn
    have hg : (name, scoresOf name results) ∈ groupByRoute results := by
      refine mem_of_lookupGroup_eq_some _ _ _ ?_
      rw [lookupGroup_groupByRoute, if_pos hn]
    have hle := List.le_of_mem_argmax hg hopt
    simpa using hle
  · intro g hgmem hsum
    rw [groupIdx_eq_indexOf, groupIdx_eq_indexOf]
    exact List.index_of_argmax hopt hgmem (le_of_eq hsum.symm)

theorem semantic_classify_winner_witness :
    ∃ best : String × List ℚ,
      semanticClassify [("A", (1:ℚ)), ("B", 2)] = some best ∧
      best ∈ groupByRoute [("A", (1:ℚ)), ("B", 2)] ∧
      best.2 ≠ [] ∧
      (∀ name, name ∈ ([("A", (1:ℚ)), ("B", 2)] : List (String × ℚ)).map Prod.fst →
        (scoresOf name [("A", (1:ℚ)), ("B", 2)]).sum ≤ best.2.sum) ∧
      (∀ g, g ∈ groupByRoute [("A", (1:ℚ)), ("B", 2)] →
        g.2.sum = best.2.sum →
        groupIdx best (groupByRoute [("A", (1:ℚ)), ("B", 2)]) ≤
          groupIdx g (groupByRoute [("A", (1:ℚ)), ("B", 2)])) ∧
      (groupByRoute [("A", (1:ℚ)), ("B", 2)]).map Prod.fst =
        firstEncounterOrder (([("A", (1:ℚ)), ("B", 2)] : List (String × ℚ)).map Prod.fst) :=
  semantic_classify_winner [("A", (1:ℚ)), ("B", 2)] (by simp)

/-- C2: the classifier groups scores by route name preserving
encounter order within each group (each group's list is exactly the
scores of that route in input order, not sorted), returns a winner
drawn from those groups with its full ordered score list, and on
`[(Route1, 0.9), (Route2, 0.1), (Route1, 0.8)]` returns
`("Route1", [0.9, 0.8])`. -/
theorem semantic_classify_grouping (results : List (String × ℚ)) :
    (∀ g : String × List ℚ, g ∈ groupByRoute results → g.2 = scoresOf g.1 results) ∧
    (∀ best : String × List ℚ, semanticClassify results = some best →
      best ∈ groupByRoute results) ∧
    semanticClassify [("Route1", (9:ℚ)/10), ("Route2", 1/10), ("Route1", 8/10)] =
      some ("Route1", [9/10, 8/10]) := by
  refine ⟨fun g hg => (mem_groupByRoute_eq results g hg).1,
    fun best hb => List.argmax_mem hb, ?_⟩
  norm_num [semanticClassify, groupByRoute, groupByRouteAux, insertScore,
    List.argmax_cons, List.argmax_nil]

theorem semantic_classify_grouping_witness :
    ("A", [(1:ℚ), 3]) ∈ groupByRoute [("A", (1:ℚ)), ("B", 2), ("A", 3)] ∧
    ([(1:ℚ), 3] : List ℚ) = scoresOf "A" [("A", (1:ℚ)), ("B", 2), ("A", 3)] :=
  ⟨by decide,
    (semantic_classify_grouping [("A", (1:ℚ)), ("B", 2), ("A", 3)]).1
      ("A", [(1:ℚ), 3]) (by decide)⟩


/-- C3: the threshold gate returns `true` if and only if some score in
the list is greater than or equal to the threshold; in particular it
returns `false` for the empty list regardless of the threshold. -/
theorem pass_threshold_iff (scores : List ℚ) (threshold : ℚ) :
    (passThreshold scores threshold = true ↔ ∃ s, s ∈ scores ∧ threshold ≤ s) ∧
    passThreshold [] threshold = false := by
  constructor
  · simp [passThreshold, List.any_eq_true]
  · rfl

/-- C4: when the index is empty, `query` returns "no match" (`none`)
and makes zero provider `encode` invocations, for every query text and
every similarity function. -/
theorem query_empty_index_no_encode (rl : RouteLayer) (sim : List ℚ → List ℚ → ℚ)
    (text : String) (h : rl.index = []) :
    rl.query sim text = (Option.none, 0) := by
  simp [RouteLayer.query, h]

theorem query_empty_index_no_encode_witness :
    RouteLayer.query ⟨⟨"test-encoder", 82/100, fun _ => []⟩, [], [], [], 82/100⟩
      (fun _ _ => 0) "Anything" = (Option.none, 0) :=
  query_empty_index_no_encode _ _ _ rfl

/-- C5: `add(route)` grows the index by exactly the number of
utterances of the route (given the provider contract that `encode`
returns one vector per input string), grows the set of distinct
category labels by at most one, and leaves it unchanged when the route
name was already present among the categories. -/
theorem add_route_growth (rl : RouteLayer) (route : Route)
    (henc : (rl.encoder.encode route.utterances).length = route.utterances.length) :
    (rl.add route).index.length = rl.index.length + route.utterances.length ∧
    (rl.add route).categories.toFinset.card ≤ rl.categories.toFinset.card + 1 ∧
    (route.name ∈ rl.categories →
      (rl.add route).categories.toFinset.card = rl.categories.toFinset.card) := by
  have hsub : ((rl.encoder.encode route.utterances).map
      fun _ => route.name).toFinset ⊆ {route.name} := by
    intro x hx
    rcases List.mem_map.mp (List.mem_toFinset.mp hx) with ⟨a, _, rfl⟩
    exact Finset.mem_singleton_self _
  refine ⟨?_, ?_, ?_⟩
  · simp [RouteLayer.add, henc]
  · simp only [RouteLayer.add, List.toFinset_append]
    calc (rl.categories.toFinset ∪
          ((rl.encoder.encode route.utterances).map fun _ => route.name).toFinset).card
        ≤ rl.categories.toFinset.card +
          ((rl.encoder.encode route.utterances).map fun _ => route.name).toFinset.card :=
          Finset.card_union_le _ _
      _ ≤ rl.categories.toFinset.card + 1 := by
          have h1 : ((rl.encoder.encode route.utterances).map
              fun _ => route.name).toFinset.card ≤ 1 :=
            (Finset.card_le_card hsub).trans (by simp)
          exact Nat.add_le_add_left h1 _
  · intro hmem
    simp only [RouteLayer.add, List.toFinset_append]
    have h2 : ((rl.encoder.encode route.utterances).map
        fun _ => route.name).toFinset ⊆ rl.categories.toFinset := by
      refine hsub.trans ?_
      simpa using List.mem_toFinset.mpr hmem
    rw [Finset.union_eq_left.mpr h2]

theorem add_route_growth_witness :
    (RouteLayer.add ⟨⟨"e", 82/100, fun docs => docs.map (fun _ => [0])⟩,
        [[0]], ["Route 1"], [], 82/100⟩
        ⟨"Route 2", ["Maybe", "Sure"], Option.none⟩).index.length =
      1 + 2 ∧
    (RouteLayer.add ⟨⟨"e", 82/100, fun docs => docs.map (fun _ => [0])⟩,
        [[0]], ["Route 1"], [], 82/100⟩
        ⟨"Route 2", ["Maybe", "Sure"], Option.none⟩).categories.toFinset.card ≤
      (["Route 1"] : List String).toFinset.card + 1 := by
  have h := add_route_growth
    ⟨⟨"e", 82/100, fun docs => docs.map (fun _ => [0])⟩, [[0]], ["Route 1"], [], 82/100⟩
    ⟨"Route 2", ["Maybe", "Sure"], Option.none⟩ (by simp)
  exact ⟨h.1, h.2.1⟩

theorem add_parallel (rl : RouteLayer) (route : Route) (h : parallelInv rl) :
    parallelInv (rl.add route) := by
  simp only [parallelInv, RouteLayer.add, List.length_append, List.length_map] at h ⊢
  omega

theorem addRoutes_parallel (routes : List Route) :
    ∀ rl : RouteLayer, parallelInv rl → parallelInv (rl.addRoutes routes) := by
  induction routes with
  | nil => intro rl h; exact h
  | cons r rs ih =>
    intro rl h
    exact ih _ (add_parallel rl r h)

/-- C6: the parallel-sequences invariant `len(index) = len(categories)`
is preserved by `add`, by `add_routes`, and holds for a layer freshly
constructed with any initial routes (`query` reads the state and
returns a value without mutating the layer, so it preserves the
invariant trivially). -/
theorem parallel_sequences_invariant (rl : RouteLayer) (route : Route)
    (routes : List Route) (encoder : Encoder) (thr : Option ℚ) (h : parallelInv rl) :
    parallelInv (rl.add route) ∧
    parallelInv (rl.addRoutes routes) ∧
    parallelInv (mkRouteLayer encoder routes thr) := by
  refine ⟨add_parallel rl route h, addRoutes_parallel routes rl h, ?_⟩
  exact addRoutes_parallel routes _ rfl

theorem parallel_sequences_invariant_witness :
    parallelInv (RouteLayer.add
      ⟨⟨"e", 82/100, fun docs => docs.map (fun _ => [0])⟩, [], [], [], 82/100⟩
      ⟨"Route 1", ["Hello", "Hi"], Option.none⟩) ∧
    parallelInv (mkRouteLayer ⟨"e", 82/100, fun docs => docs.map (fun _ => [0])⟩
      [⟨"Route 1", ["Hello", "Hi"], Option.none⟩] Option.none) := by
  have h := parallel_sequences_invariant
    ⟨⟨"e", 82/100, fun docs => docs.map (fun _ => [0])⟩, [], [], [], 82/100⟩
    ⟨"Route 1", ["Hello", "Hi"], Option.none⟩
    [⟨"Route 1", ["Hello", "Hi"], Option.none⟩]
    ⟨"e", 82/100, fun docs => docs.map (fun _ => [0])⟩ Option.none rfl
  exact ⟨h.1, h.2.2⟩

theorem add_score_threshold (rl : RouteLayer) (route : Route) :
    (rl.add route).score_threshold = rl.score_threshold := rfl

theorem addRoutes_score_threshold (routes : List Route) :
    ∀ rl : RouteLayer, (rl.addRoutes routes).score_threshold = rl.score_threshold := by
  induction routes with
  | nil => intro rl; rfl
  | cons r rs ih => intro rl; exact ih _

/-- C7: a `RouteLayer` constructed without an explicit
`score_threshold` adopts the provider's default: in general it equals
`encoder.score_threshold`, and concretely a provider with default
`0.3` (the test's Cohere encoder) yields `0.3`, one with `0.82` (the
test's OpenAI encoder) yields `0.82`; the Bedrock provider embedded
from the source carries its own default of `0.75` when constructed
without an explicit threshold. -/
theorem score_threshold_provider_default (encoder : Encoder) (routes : List Route)
    (defaultModelId : String) (model_id : Option String) :
    (mkRouteLayer encoder routes Option.none).score_threshold = encoder.score_threshold ∧
    (mkRouteLayer ⟨"test-cohere-encoder", 3/10, fun _ => []⟩ []
      Option.none).score_threshold = 3/10 ∧
    (mkRouteLayer ⟨"test-openai-encoder", 82/100, fun _ => []⟩ []
      Option.none).score_threshold = 82/100 ∧
    (BedrockEncoder.initDefault defaultModelId model_id).score_threshold = 75/100 := by
  refine ⟨?_, rfl, rfl, rfl⟩
  rw [mkRouteLayer, addRoutes_score_threshold]
  rfl

/-- C9: `_initialize_client` fails with a `ValueError` (modelled as
`Except.error`) and constructs no client whenever the access key id is
absent both as an argument and in the environment, or the secret
access key is absent both as an argument and in the environment. -/
theorem initialize_client_missing_credential (akid skey region : Option String)
    (env : String → Option String)
    (h : (akid = Option.none ∧ env "AWS_ACCESS_KEY_ID" = Option.none) ∨
         (skey = Option.none ∧ env "AWS_SECRET_ACCESS_KEY" = Option.none)) :
    ∃ msg, initializeClient akid skey region env = Except.error msg := by
  rcases h with ⟨h1, h2⟩ | ⟨h1, h2⟩
  · subst h1
    exact ⟨"AWS access key ID cannot be 'None'.",
      by simp [initializeClient, pyOr, pyTruthy, h2]⟩
  · subst h1
    by_cases hak : pyOr akid (env "AWS_ACCESS_KEY_ID") = Option.none
    · exact ⟨"AWS access key ID cannot be 'None'.", by simp [initializeClient, hak]⟩
    · have hsk : pyOr Option.none (env "AWS_SECRET_ACCESS_KEY") = Option.none := by
        simp [pyOr, pyTruthy, h2]
      refine ⟨"AWS secret access key cannot be 'None'.", ?_⟩
      simp only [initializeClient]
      rw [if_neg hak, if_pos hsk]

theorem initialize_client_missing_credential_witness :
    ∃ msg, initializeClient Option.none (some "secret-key") Option.none
      (fun _ => Option.none) = Except.error msg :=
  initialize_client_missing_credential Option.none (some "secret-key") Option.none
    (fun _ => Option.none) (Or.inl ⟨rfl, rfl⟩)

/-- C10: for every document processed by a `BedrockEncoder` whose
`name` is not `"cohere.embed-english-v3"`, the invoked `modelId` is
the hardcoded `"amazon.titan-embed-text-v1"`, regardless of the
configured model id. -/
theorem bedrock_call_hardcoded_model (enc : BedrockEncoder) (api : String → Py → Py)
    (docs : List String) (h : enc.name ≠ "cohere.embed-english-v3") :
    (enc.call api docs).2 =
      docs.map (fun doc => ("amazon.titan-embed-text-v1", titanBody doc)) := by
  induction docs with
  | nil => rfl
  | cons d rest ih => simp [BedrockEncoder.call, h, ih]

theorem bedrock_call_hardcoded_model_witness :
    (BedrockEncoder.call ⟨"anthropic.claude-v2", 75/100⟩ (fun _ _ => Py.none)
      ["first doc", "second doc"]).2 =
      [("amazon.titan-embed-text-v1", titanBody "first doc"),
        ("amazon.titan-embed-text-v1", titanBody "second doc")] :=
  bedrock_call_hardcoded_model ⟨"anthropic.claude-v2", 75/100⟩ (fun _ _ => Py.none)
    ["first doc", "second doc"] (by decide)

/-- C8: evaluation of `BedrockEncoder.__call__` at the failing input
for the flat-vector contract — a `cohere.embed-english-v3` encoder on
`["hello"]` with the Bedrock API responding
`{"embeddings": [[1.0, 2.0]]}`: the code appends `r.get('embeddings')`
(the API's list-of-vectors wrapper) instead of the vector itself, so
the returned element is the nested `[[1, 2]]`, not the flat vector
`[1, 2]` promised by the claim and by the method's own docstring. -/
theorem bedrock_call_cohere_nested_vector :
    (BedrockEncoder.call ⟨"cohere.embed-english-v3", 75/100⟩
        (fun _ _ => Py.obj [("embeddings", Py.list [Py.list [Py.num 1, Py.num 2]])])
        ["hello"]).1 =
      [Py.list [Py.list [Py.num 1, Py.num 2]]] ∧
    Py.isFlatVec (Py.list [Py.list [Py.num 1, Py.num 2]]) = false ∧
    Py.isFlatVec (Py.list [Py.num 1, Py.num 2]) = true :=
  ⟨rfl, rfl, rfl⟩

end SemanticRouter

